import Mathlib

/-!
Verification of the i18n placeholder checker (`src/index.js`).

The JavaScript source is shallowly embedded: JS `Map` objects become
insertion-ordered association lists, the global-regex `exec` loops become
fuel-based character scanners producing the same match sequences, and the
filesystem is abstracted as a listing of directory entries together with a
parse function from file names to parsed locale documents.
-/

set_option maxHeartbeats 1000000

namespace PlaceholderChecker

/-- JSON-representable runtime values, as produced by `JSON.parse`. -/
inductive JSValue where
  | str (s : String)
  | num (n : Int)
  | bool (b : Bool)
  | null
  | arr (elems : List JSValue)
  | obj (fields : List (String × JSValue))

/-- JS `typeof` on a parsed JSON value (`typeof null` is `"object"` in JS,
and arrays/objects are both `"object"`). -/
def jsTypeof : JSValue → String
  | .str _ => "string"
  | .num _ => "number"
  | .bool _ => "boolean"
  | .null => "object"
  | .arr _ => "object"
  | .obj _ => "object"

/-- A JS `Map` from placeholder token to count: an insertion-ordered
association list. -/
abbrev PMap := List (String × Nat)

/-- JS `Map.prototype.get`: value at the first matching key. -/
def pmGet : PMap → String → Option Nat
  | [], _ => none
  | (k, v) :: rest, t => if k = t then some v else pmGet rest t

/-- JS `Map.prototype.set`: replace the value at an existing key in place,
else append the binding at the end. -/
def pmSet : PMap → String → Nat → PMap
  | [], k, v => [(k, v)]
  | (k', v') :: rest, k, v =>
    if k' = k then (k, v) :: rest else (k', v') :: pmSet rest k v

/-- The update `counts.set(token, (counts.get(token) ?? 0) + 1)`. -/
def pmIncr (m : PMap) (t : String) : PMap :=
  pmSet m t ((pmGet m t).getD 0 + 1)

/-- JS `Map.prototype.has`. -/
def pmHas (m : PMap) (t : String) : Bool :=
  (pmGet m t).isSome

/-- A JS `Map` has pairwise-distinct keys; maps built by the program always
satisfy this. -/
def pmWF (m : PMap) : Prop :=
  (m.map Prod.fst).Nodup

instance (m : PMap) : Decidable (pmWF m) := by
  unfold pmWF; infer_instance

/-- The whitespace class trimmed by JS `String.prototype.trim`
(WhiteSpace plus LineTerminator code points). -/
def isJsSpace (c : Char) : Bool :=
  c == '\x09' || c == '\x0a' || c == '\x0b' || c == '\x0c' || c == '\x0d' ||
  c == ' ' || c == '\xa0' || c == '\u1680' ||
  ('\u2000' ≤ c && c ≤ '\u200a') ||
  c == '\u2028' || c == '\u2029' || c == '\u202f' || c == '\u205f' ||
  c == '\u3000' || c == '\ufeff'

/-- JS `String.prototype.trim` on a character list. -/
def jsTrim (cs : List Char) : List Char :=
  ((cs.dropWhile isJsSpace).reverse.dropWhile isJsSpace).reverse

/-- One match produced by a global-regex `exec` loop: the character just
before the match (`value[match.index - 1]`, `none` at the string start),
the matched span of interest, and the character just after the match
(`value[endIndex]`, `none` at the string end).  For the brace pattern
`content` is the capture group (between the braces); for the
keyword-prefix pattern it is the whole match. -/
structure RawMatch where
  prevChar : Option Char
  content : List Char
  nextChar : Option Char
deriving DecidableEq, Repr

/-- Characters allowed inside a brace placeholder: the `[^{}]` class. -/
def nonBraceChar (c : Char) : Bool :=
  !(c == '\x7b' || c == '\x7d')

/-- Scanner for the global regex `/\{([^{}]+)\}/g`: at each position, a
match needs an opening brace, a maximal nonempty run of non-brace
characters, and a closing brace; on success scanning resumes after the
closing brace (`lastIndex`), on failure at the next character.  `prev` is
the character immediately before the current position; `fuel` only bounds
the recursion and never runs out when it starts at `s.length + 1`. -/
def braceScan : Nat → List Char → Option Char → List RawMatch
  | 0, _, _ => []
  | _ + 1, [], _ => []
  | fuel + 1, c :: rest, prev =>
    if c = '\x7b' then
      match rest.dropWhile nonBraceChar with
      | '\x7d' :: tail =>
        if rest.takeWhile nonBraceChar = [] then
          braceScan fuel rest (some c)
        else
          ⟨prev, rest.takeWhile nonBraceChar, tail.head?⟩ ::
            braceScan fuel tail (some '\x7d')
      | _ => braceScan fuel rest (some c)
    else braceScan fuel rest (some c)

/-- All matches of `PLACEHOLDER_PATTERN` over a string, in scan order. -/
def braceMatches (s : List Char) : List RawMatch :=
  braceScan (s.length + 1) s none

/-- Scanner for the global regex built from an escaped keyword prefix,
`new RegExp(escapeRegExp(prefixText) + "\\d+", "g")`: a match is the
literal prefix followed by a maximal nonempty run of ASCII digits. -/
def kwScan (p : List Char) : Nat → List Char → Option Char → List RawMatch
  | 0, _, _ => []
  | _ + 1, [], _ => []
  | fuel + 1, c :: rest, prev =>
    if p.isPrefixOf (c :: rest) then
      let after := (c :: rest).drop p.length
      let digits := after.takeWhile Char.isDigit
      if digits = [] then kwScan p fuel rest (some c)
      else
        ⟨prev, p ++ digits, (after.dropWhile Char.isDigit).head?⟩ ::
          kwScan p fuel (after.dropWhile Char.isDigit) (digits.getLastD c)
    else kwScan p fuel rest (some c)

/-- All matches of the keyword-prefix pattern over a string. -/
def kwMatches (p : List Char) (s : List Char) : List RawMatch :=
  kwScan p (s.length + 1) s none

/-- The three `continue` guards of the primary extraction loop:
`value[startIndex - 1] === "\\"`, `value[startIndex - 1] === "{"`,
`value[endIndex] === "}"`. -/
def excludedByAdjacency (m : RawMatch) : Bool :=
  m.prevChar == some '\x5c' || m.prevChar == some '\x7b' ||
    m.nextChar == some '\x7d'

/-- Body of the primary `while ((match = PLACEHOLDER_PATTERN.exec(value)))`
loop, folded over the match sequence. -/
def bracePass : List RawMatch → PMap → PMap
  | [], acc => acc
  | m :: rest, acc =>
    if m.prevChar == some '\x5c' then bracePass rest acc
    else if m.prevChar == some '\x7b' then bracePass rest acc
    else if m.nextChar == some '\x7d' then bracePass rest acc
    else
      let token := String.mk (jsTrim m.content)
      if token = "" then bracePass rest acc
      else bracePass rest (pmIncr acc token)

/-- The `continue` guard of the keyword-prefix loop:
`charBefore === "{" && charAfter === "}"`. -/
def kwMatchSkipped (m : RawMatch) : Bool :=
  m.prevChar == some '\x7b' && m.nextChar == some '\x7d'

/-- Body of the keyword-prefix `while ((match = pattern.exec(value)))`
loop, folded over the match sequence. -/
def kwPass : List RawMatch → PMap → PMap
  | [], acc => acc
  | m :: rest, acc =>
    if kwMatchSkipped m then kwPass rest acc
    else kwPass rest (pmIncr acc (String.mk m.content))

/-- The function `collectPlaceholders(value, { keywordPrefixes })`: non-string values
yield an empty map; otherwise the primary brace pass runs, then one
keyword pass per non-empty configured prefix (`if (!prefixText) continue`). -/
def collectPlaceholders (value : JSValue) (keywordPrefixes : List String) : PMap :=
  match value with
  | .str s =>
    let base := bracePass (braceMatches s.data) []
    keywordPrefixes.foldl
      (fun acc p => if p = "" then acc else kwPass (kwMatches p.data s.data) acc)
      base
  | _ => []

/-- One entry of `countMismatch`: `{ token, expected: count, actual: targetCount }`. -/
structure MismatchEntry where
  token : String
  expected : Nat
  actual : Nat
deriving DecidableEq, Repr

/-- Result of `diffPlaceholders`: the three mismatch collections. -/
structure DiffResult where
  missing : List String
  extra : List String
  countMismatch : List MismatchEntry
deriving DecidableEq, Repr

/-- The function `diffPlaceholders(sourceMap, targetMap)`.  The first JS
loop pushes each source token either to `missing` (token absent from the
target) or to `countMismatch` (present with a different count); the second
loop pushes target tokens absent from the source to `extra`.  Each output
array is the order-preserving `filterMap` of the corresponding loop. -/
def diffPlaceholders (sourceMap targetMap : PMap) : DiffResult where
  missing := sourceMap.filterMap fun tc =>
    if pmGet targetMap tc.1 = none then some tc.1 else none
  extra := targetMap.filterMap fun tc =>
    if pmHas sourceMap tc.1 then none else some tc.1
  countMismatch := sourceMap.filterMap fun tc =>
    match pmGet targetMap tc.1 with
    | none => none
    | some targetCount =>
      if targetCount ≠ tc.2 then some ⟨tc.1, tc.2, targetCount⟩ else none

/-- A key diff is clean when all three collections are empty. -/
def isClean (d : DiffResult) : Bool :=
  d.missing.isEmpty && d.extra.isEmpty && d.countMismatch.isEmpty

/-- The truthiness test
`diff.missing.length || diff.extra.length || diff.countMismatch.length`
guarding the error push. -/
def diffNotClean (d : DiffResult) : Bool :=
  d.missing.length != 0 || d.extra.length != 0 || d.countMismatch.length != 0

/-- Rendering of one entry by `formatPlaceholderMap`:
the token, or the token plus an occurrence-count suffix when above one. -/
def formatEntry (tc : String × Nat) : String :=
  if tc.2 > 1 then tc.1 ++ " (x" ++ toString tc.2 ++ ")" else tc.1

/-- Lexicographic order on character lists (JS default string comparison,
by code unit; identical to code-point order on these inputs). -/
def charsLe : List Char → List Char → Bool
  | [], _ => true
  | _ :: _, [] => false
  | a :: as, b :: bs => if a = b then charsLe as bs else decide (a < b)

/-- JS default string comparison, as used by `Array.prototype.sort()`. -/
def strLe (a b : String) : Bool :=
  charsLe a.data b.data

/-- Insert a string into an already sorted list of strings. -/
def insertSorted (x : String) : List String → List String
  | [] => [x]
  | y :: ys => if strLe x y then x :: y :: ys else y :: insertSorted x ys

/-- JS `Array.prototype.sort()` on an array of strings (insertion sort;
on strings any comparison sort returns the same, fully sorted, array). -/
def sortStrings (l : List String) : List String :=
  l.foldr insertSorted []

/-- The function `formatPlaceholderMap`: render every entry, then `sort()`. -/
def formatPlaceholderMap (m : PMap) : List String :=
  sortStrings (m.map formatEntry)

/-- One element of the `warnings` array of `compareLocaleFile`: its `type`
tag is the constructor, and a `non-string` warning carries `actualType`. -/
inductive CWarning where
  | missingKey (key : String)
  | nonString (key : String) (actualType : String)
deriving DecidableEq, Repr

/-- One element of the `errors` array of `compareLocaleFile`; the only
kind produced is `type: "placeholder-mismatch"`, with the diff and the
rendered expected/actual token lists. -/
inductive CError where
  | placeholderMismatch (key : String) (diff : DiffResult)
      (expected actual : List String)
deriving DecidableEq, Repr

/-- Key field of a warning object. -/
def warningKey : CWarning → String
  | .missingKey key => key
  | .nonString key _ => key

/-- Key field of an error object. -/
def errorKey : CError → String
  | .placeholderMismatch key _ _ _ => key

/-- The `{ errors, warnings }` object returned by `compareLocaleFile`. -/
structure FileOutcome where
  errors : List CError
  warnings : List CWarning
deriving DecidableEq, Repr

/-- A parsed locale document: a JSON object, as a key-ordered field list. -/
abbrev LocaleDoc := List (String × JSValue)

/-- Own-property lookup on a parsed object: the value stored under the
key in the JSON document itself, not consulting the prototype chain
(`JSON.parse` stores every JSON key, including a literal `"__proto__"`,
as an own data property). -/
def objGet (o : LocaleDoc) (k : String) : Option JSValue :=
  (o.find? fun e => e.1 = k).map Prod.snd

/-- Members of `Object.prototype`, the prototype of every `JSON.parse`
object, paired with the `typeof` of the inherited value: the eleven
method properties are functions, and reading the `__proto__` accessor on
a plain object yields `Object.prototype` itself, an object.  Both the
`in` operator and property access fall back to these when the key is not
an own property. -/
def objectProtoMembers : List (String × String) :=
  [("constructor", "function"),
   ("hasOwnProperty", "function"),
   ("isPrototypeOf", "function"),
   ("propertyIsEnumerable", "function"),
   ("toLocaleString", "function"),
   ("toString", "function"),
   ("valueOf", "function"),
   ("__defineGetter__", "function"),
   ("__defineSetter__", "function"),
   ("__lookupGetter__", "function"),
   ("__lookupSetter__", "function"),
   ("__proto__", "object")]

/-- Inherited-member lookup: the `typeof` name of the `Object.prototype`
member a non-own key falls back to, when there is one. -/
def protoTypeof (k : String) : Option String :=
  (objectProtoMembers.find? fun e => e.1 = k).map Prod.snd

/-- A value that property access on a parsed-JSON object can produce:
an own JSON value, or a member inherited from `Object.prototype`
(represented by its `typeof` name, the only aspect the program reads;
no inherited member is a string). -/
inductive PropValue where
  | own (v : JSValue)
  | inherited (typeofName : String)

/-- JS `typeof` of an accessed property value. -/
def propTypeof : PropValue → String
  | .own v => jsTypeof v
  | .inherited t => t

/-- Property access `targetEntries[key]` on a parsed-JSON object: the own
property when present, else the `Object.prototype` member; `none` exactly
when `key in targetEntries` is false. -/
def objAccess (o : LocaleDoc) (k : String) : Option PropValue :=
  match objGet o k with
  | some v => some (.own v)
  | none => (protoTypeof k).map .inherited

/-- The function `compareLocaleFile(sourcePlaceholders, targetEntries,
collectOptions)`: iterate source-map entries in order; a key for which
`key in targetEntries` fails (not an own property, no inherited member)
pushes a `missing-key` warning, a key whose accessed value is not a
string pushes a `non-string` warning with its `typeof`, otherwise the
target value is tokenized and diffed, pushing a `placeholder-mismatch`
error when the diff is not clean. -/
def compareLocaleFile (sourcePlaceholders : List (String × PMap))
    (targetEntries : LocaleDoc) (keywordPrefixes : List String) : FileOutcome :=
  match sourcePlaceholders with
  | [] => ⟨[], []⟩
  | (key, sourcePlaceholderMap) :: rest =>
    let restOutcome := compareLocaleFile rest targetEntries keywordPrefixes
    match objAccess targetEntries key with
    | none =>
      ⟨restOutcome.errors, .missingKey key :: restOutcome.warnings⟩
    | some (.own (.str sv)) =>
      let targetPlaceholderMap := collectPlaceholders (.str sv) keywordPrefixes
      let diff := diffPlaceholders sourcePlaceholderMap targetPlaceholderMap
      if diffNotClean diff then
        ⟨.placeholderMismatch key diff
            (formatPlaceholderMap sourcePlaceholderMap)
            (formatPlaceholderMap targetPlaceholderMap) :: restOutcome.errors,
          restOutcome.warnings⟩
      else restOutcome
    | some targetValue =>
      ⟨restOutcome.errors,
        .nonString key (propTypeof targetValue) :: restOutcome.warnings⟩

/-- A directory entry as seen through `fs.readdir(.., { withFileTypes: true })`. -/
structure DirEntry where
  name : String
  isFile : Bool
deriving DecidableEq, Repr

/-- The abstract filesystem a run works in: the scanned directory's
entries, and the parsed JSON content of each readable file (`none` models
a JSON parse failure, which `loadJson` turns into a thrown error). -/
structure FileSys where
  entries : List DirEntry
  contents : String → Option LocaleDoc

/-- Errors that abort a run: the two resolution failures thrown by
`resolveSourceFile`, and the parse failure thrown by `loadJson`. -/
inductive CheckError where
  | sourceNotFound (name : String)
  | sourceUnresolved (candidates : List String)
  | parseFailure (file : String)
deriving DecidableEq, Repr

/-- The constant `DEFAULT_SOURCE_CANDIDATES`. -/
def DEFAULT_SOURCE_CANDIDATES : List String :=
  ["zh-cn.json", "zhCN.json", "zh-CN.json", "zh_CN.json"]

/-- The constant `DEFAULT_IGNORES`. -/
def DEFAULT_IGNORES : List String :=
  ["package.json", "package-lock.json", "npm-shrinkwrap.json"]

/-- JS `String.prototype.endsWith`, on the character lists. -/
def strEndsWith (s suff : String) : Bool :=
  suff.data.isSuffixOf s.data

/-- Whether `name` is present in the directory as a regular file:
`directoryEntries.find((entry) => entry.isFile() && entry.name === name)`. -/
def hasFileEntry (entries : List DirEntry) (name : String) : Bool :=
  entries.any fun e => e.isFile && e.name == name

/-- The function `resolveSourceFile(directoryEntries, { directory,
override })`.  A truthy override (JS: any non-empty string) must exist as
a regular file or the run fails; otherwise the first member of
`DEFAULT_SOURCE_CANDIDATES` present as a regular file is chosen, and if
none is, the run fails naming all candidates. -/
def resolveSourceFile (entries : List DirEntry) (override : Option String) :
    Except CheckError String :=
  if (override.getD "") = "" then
    match DEFAULT_SOURCE_CANDIDATES.find? (fun c => hasFileEntry entries c) with
    | some candidate => .ok candidate
    | none => .error (.sourceUnresolved DEFAULT_SOURCE_CANDIDATES)
  else
    let name := override.getD ""
    if hasFileEntry entries name then .ok name
    else .error (.sourceNotFound name)

/-- The function `loadJson`: look the parsed content up, or throw the
parse-failure error naming the offending file. -/
def loadJson (fsys : FileSys) (name : String) : Except CheckError LocaleDoc :=
  match fsys.contents name with
  | some doc => .ok doc
  | none => .error (.parseFailure name)

/-- The function `buildSourcePlaceholderMap(sourceEntries, collectOptions)`. -/
def buildSourcePlaceholderMap (sourceEntries : LocaleDoc)
    (keywordPrefixes : List String) : List (String × PMap) :=
  sourceEntries.map fun kv => (kv.1, collectPlaceholders kv.2 keywordPrefixes)

/-- One element of the `results` array of `checkPlaceholders`:
`{ file, errors, warnings }`. -/
structure FileResult where
  file : String
  errors : List CError
  warnings : List CWarning
deriving DecidableEq, Repr

/-- The per-file loop of `checkPlaceholders`: load each locale file in
order and compare it, aborting the whole run on a parse failure. -/
def checkResults (fsys : FileSys) (sourcePlaceholders : List (String × PMap))
    (keywordPrefixes : List String) :
    List String → Except CheckError (List FileResult)
  | [] => .ok []
  | file :: rest => do
    let targetEntries ← loadJson fsys file
    let outcome := compareLocaleFile sourcePlaceholders targetEntries keywordPrefixes
    let restResults ← checkResults fsys sourcePlaceholders keywordPrefixes rest
    pure (⟨file, outcome.errors, outcome.warnings⟩ :: restResults)

/-- The report object returned by `checkPlaceholders` (the `directory`
field, a filesystem path, is outside the abstract-filesystem model). -/
structure Report where
  ok : Bool
  sourceFile : String
  filesChecked : List String
  failures : List FileResult
  warningsOnly : List FileResult
deriving DecidableEq, Repr

/-- Final partition step of `checkPlaceholders`: `failures` are results
with at least one error, `warningsOnly` those with no error and at least
one warning, and `ok` holds when `failures` is empty. -/
def buildReport (resolvedSource : String) (localeFiles : List String)
    (results : List FileResult) : Report where
  ok := (results.filter fun r => r.errors.length != 0).length == 0
  sourceFile := resolvedSource
  filesChecked := localeFiles
  failures := results.filter fun r => r.errors.length != 0
  warningsOnly := results.filter fun r =>
    r.errors.length == 0 && r.warnings.length != 0

deriving instance DecidableEq for Except

/-- Options accepted by `checkPlaceholders` (`cwd` is subsumed by the
abstract filesystem). -/
structure CheckOptions where
  source : Option String
  ignore : List String
  keywordPrefixes : List String

/-- The function `checkPlaceholders(options)` over the abstract
filesystem: resolve the source file, build the ignore set, list and sort
the candidate `.json` files, build the source placeholder table, compare
every candidate file, and partition the results into the report. -/
def checkPlaceholders (fsys : FileSys) (opts : CheckOptions) :
    Except CheckError Report := do
  let resolvedSource ← resolveSourceFile fsys.entries opts.source
  let ignoreSet := resolvedSource :: (opts.ignore ++ DEFAULT_IGNORES)
  let localeFiles :=
    sortStrings ((fsys.entries.filter fun e =>
        e.isFile && strEndsWith e.name ".json" && !(ignoreSet.contains e.name)).map
      (fun e => e.name))
  let sourceEntries ← loadJson fsys resolvedSource
  let sourcePlaceholders :=
    buildSourcePlaceholderMap sourceEntries opts.keywordPrefixes
  let results ← checkResults fsys sourcePlaceholders opts.keywordPrefixes localeFiles
  pure (buildReport resolvedSource localeFiles results)

/-- Token contributed by one primary-pass match: none when one of the
three adjacency exclusions fires or when the content trims to the empty
string, else the trimmed content. -/
def braceTokenOf (m : RawMatch) : Option String :=
  if excludedByAdjacency m then none
  else if String.mk (jsTrim m.content) = "" then none
  else some (String.mk (jsTrim m.content))

/-- Token contributed by one keyword-pass match: none when the match is
immediately surrounded by a brace pair, else the whole matched text. -/
def kwTokenOf (m : RawMatch) : Option String :=
  if kwMatchSkipped m then none else some (String.mk m.content)

/-- All tokens the primary pass counts over a string, in match order. -/
def braceTokens (s : List Char) : List String :=
  (braceMatches s).filterMap braceTokenOf

/-- All tokens one keyword-pass counts over a string, in match order. -/
def kwTokens (p : List Char) (s : List Char) : List String :=
  (kwMatches p s).filterMap kwTokenOf

/-- Tokens of the keyword passes for a whole prefix list (empty prefixes
are skipped). -/
def kwTokensAll (s : List Char) : List String → List String
  | [] => []
  | p :: rest => (if p = "" then [] else kwTokens p.data s) ++ kwTokensAll s rest

/-- Every token `collectPlaceholders` counts on a string, in the order
the passes record them. -/
def allTokens (s : List Char) (keywordPrefixes : List String) : List String :=
  braceTokens s ++ kwTokensAll s keywordPrefixes

/-- Sum a count onto an optional map entry, `(counts.get(t) ?? 0) + n`
with absence preserved when nothing is added. -/
def optAdd : Option Nat → Nat → Option Nat
  | some c, n => some (c + n)
  | none, n => if n = 0 then none else some n

theorem pmGet_pmSet (m : PMap) (k : String) (v : Nat) (t : String) :
    pmGet (pmSet m k v) t = if k = t then some v else pmGet m t := by
  induction m with
  | nil => simp [pmGet, pmSet]
  | cons kv rest ih =>
    obtain ⟨k', v'⟩ := kv
    by_cases hk : k' = k
    · subst hk
      by_cases ht : k' = t <;> simp [pmGet, pmSet, ht]
    · by_cases ht : k' = t
      · subst ht
        have : ¬ k = k' := fun h => hk h.symm
        simp [pmGet, pmSet, hk, this]
      · simp [pmGet, pmSet, hk, ht, ih]

theorem pmGet_pmIncr (m : PMap) (k : String) (t : String) :
    pmGet (pmIncr m k) t =
      if k = t then some ((pmGet m k).getD 0 + 1) else pmGet m t := by
  simp [pmIncr, pmGet_pmSet]

theorem pmGet_foldl_pmIncr (L : List String) (m : PMap) (t : String) :
    pmGet (L.foldl pmIncr m) t = optAdd (pmGet m t) (L.count t) := by
  induction L generalizing m with
  | nil =>
    cases h : pmGet m t <;> simp [optAdd, h]
  | cons a L ih =>
    rw [List.foldl_cons, ih, pmGet_pmIncr, List.count_cons]
    by_cases ha : a = t
    · subst ha
      cases h : pmGet m a <;> simp [optAdd, h] <;> omega
    · simp [ha, beq_iff_eq]

theorem bracePass_eq (ms : List RawMatch) (acc : PMap) :
    bracePass ms acc = (ms.filterMap braceTokenOf).foldl pmIncr acc := by
  induction ms generalizing acc with
  | nil => rfl
  | cons m rest ih =>
    by_cases h1 : m.prevChar == some '\x5c'
    · simp [bracePass, braceTokenOf, excludedByAdjacency, h1, ih]
    · by_cases h2 : m.prevChar == some '\x7b'
      · simp [bracePass, braceTokenOf, excludedByAdjacency, h1, h2, ih]
      · by_cases h3 : m.nextChar == some '\x7d'
        · simp [bracePass, braceTokenOf, excludedByAdjacency, h1, h2, h3, ih]
        · by_cases ht : String.mk (jsTrim m.content) = "" <;>
            simp [bracePass, braceTokenOf, excludedByAdjacency, h1, h2, h3, ht, ih]

theorem kwPass_eq (ms : List RawMatch) (acc : PMap) :
    kwPass ms acc = (ms.filterMap kwTokenOf).foldl pmIncr acc := by
  induction ms generalizing acc with
  | nil => rfl
  | cons m rest ih =>
    by_cases h : kwMatchSkipped m <;> simp [kwPass, kwTokenOf, h, ih]

theorem collect_str_eq (s : String) (keywordPrefixes : List String) :
    collectPlaceholders (.str s) keywordPrefixes =
      (allTokens s.data keywordPrefixes).foldl pmIncr [] := by
  have key : ∀ (kps : List String) (acc : PMap),
      kps.foldl
          (fun acc p => if p = "" then acc else kwPass (kwMatches p.data s.data) acc)
          acc
        = (kwTokensAll s.data kps).foldl pmIncr acc := by
    intro kps
    induction kps with
    | nil => intro acc; rfl
    | cons p rest ih =>
      intro acc
      simp only [List.foldl_cons, kwTokensAll]
      by_cases hp : p = ""
      · rw [if_pos hp, if_pos hp, List.nil_append]
        exact ih acc
      · rw [if_neg hp, if_neg hp, List.foldl_append, kwPass_eq]
        exact ih _
  simp [collectPlaceholders, key, allTokens, braceTokens, bracePass_eq,
    List.foldl_append]

theorem pmGet_collect (s : String) (keywordPrefixes : List String) (t : String) :
    pmGet (collectPlaceholders (.str s) keywordPrefixes) t =
      if (allTokens s.data keywordPrefixes).count t = 0 then none
      else some ((allTokens s.data keywordPrefixes).count t) := by
  rw [collect_str_eq, pmGet_foldl_pmIncr]
  rfl

theorem allTokens_nil (s : List Char) : allTokens s [] = braceTokens s := by
  simp [allTokens, kwTokensAll]

theorem allTokens_single (s : List Char) (p : String) (hp : p ≠ "") :
    allTokens s [p] = braceTokens s ++ kwTokens p.data s := by
  simp [allTokens, kwTokensAll, hp]

theorem pmGet_ne_none_iff (m : PMap) (t : String) :
    pmGet m t ≠ none ↔ ∃ c, (t, c) ∈ m := by
  induction m with
  | nil => simp [pmGet]
  | cons kv rest ih =>
    obtain ⟨k, v⟩ := kv
    by_cases hk : k = t
    · subst hk
      simp [pmGet]
    · have hk' : ¬ t = k := fun h => hk h.symm
      simp [pmGet, hk, ih, List.mem_cons, Prod.mk.injEq, hk']

theorem mem_of_pmGet_eq_some {m : PMap} {t : String} {c : Nat}
    (h : pmGet m t = some c) : (t, c) ∈ m := by
  induction m with
  | nil => simp [pmGet] at h
  | cons kv rest ih =>
    obtain ⟨k, v⟩ := kv
    by_cases hk : k = t
    · subst hk
      simp [pmGet] at h
      simp [h]
    · simp [pmGet, hk] at h
      exact List.mem_cons_of_mem _ (ih h)

theorem pmGet_eq_some_of_mem_wf {m : PMap} {t : String} {c : Nat}
    (hwf : pmWF m) (hm : (t, c) ∈ m) : pmGet m t = some c := by
  induction m with
  | nil => simp at hm
  | cons kv rest ih =>
    obtain ⟨k, v⟩ := kv
    rw [pmWF, List.map_cons, List.nodup_cons] at hwf
    rcases List.mem_cons.mp hm with h | h
    · obtain ⟨ht, hc⟩ := Prod.mk.injEq .. ▸ h
      simp [pmGet, ht.symm, hc]
    · have hk : ¬ k = t := by
        intro hkt
        exact hwf.1 (hkt ▸ (List.mem_map.mpr ⟨(t, c), h, rfl⟩))
      simp [pmGet, hk]
      exact ih hwf.2 h

theorem pmHas_eq_false_iff (m : PMap) (t : String) :
    pmHas m t = false ↔ pmGet m t = none := by
  cases h : pmGet m t <;> simp [pmHas, h]

theorem mem_missing_iff (sourceMap targetMap : PMap) (tok : String) :
    tok ∈ (diffPlaceholders sourceMap targetMap).missing ↔
      pmGet sourceMap tok ≠ none ∧ pmGet targetMap tok = none := by
  simp only [diffPlaceholders, List.mem_filterMap]
  constructor
  · rintro ⟨tc, htc, hf⟩
    by_cases h : pmGet targetMap tc.1 = none
    · rw [if_pos h] at hf
      obtain rfl : tc.1 = tok := Option.some.inj hf
      exact ⟨(pmGet_ne_none_iff ..).mpr ⟨tc.2, htc⟩, h⟩
    · rw [if_neg h] at hf
      exact absurd hf (by simp)
  · rintro ⟨hs, ht⟩
    obtain ⟨c, hc⟩ := (pmGet_ne_none_iff ..).mp hs
    exact ⟨(tok, c), hc, by rw [if_pos ht]⟩

theorem mem_extra_iff (sourceMap targetMap : PMap) (tok : String) :
    tok ∈ (diffPlaceholders sourceMap targetMap).extra ↔
      pmGet targetMap tok ≠ none ∧ pmGet sourceMap tok = none := by
  simp only [diffPlaceholders, List.mem_filterMap]
  constructor
  · rintro ⟨tc, htc, hf⟩
    by_cases h : pmHas sourceMap tc.1
    · rw [if_pos h] at hf
      exact absurd hf (by simp)
    · rw [if_neg h] at hf
      obtain rfl : tc.1 = tok := Option.some.inj hf
      refine ⟨(pmGet_ne_none_iff ..).mpr ⟨tc.2, htc⟩, ?_⟩
      exact (pmHas_eq_false_iff ..).mp (Bool.eq_false_iff.mpr h)
  · rintro ⟨ht, hs⟩
    obtain ⟨c, hc⟩ := (pmGet_ne_none_iff ..).mp ht
    refine ⟨(tok, c), hc, ?_⟩
    rw [if_neg ?_]
    intro h
    exact absurd ((pmHas_eq_false_iff ..).mpr hs) (by simp [h])

theorem mem_countMismatch_iff (sourceMap targetMap : PMap)
    (hwf : pmWF sourceMap) (tok : String) (e a : Nat) :
    (⟨tok, e, a⟩ : MismatchEntry) ∈
        (diffPlaceholders sourceMap targetMap).countMismatch ↔
      pmGet sourceMap tok = some e ∧ pmGet targetMap tok = some a ∧ e ≠ a := by
  simp only [diffPlaceholders, List.mem_filterMap]
  constructor
  · rintro ⟨tc, htc, hf⟩
    split at hf
    · exact absurd hf (by simp)
    · rename_i targetCount hg
      split at hf
      · rename_i hne
        simp only [Option.some.injEq, MismatchEntry.mk.injEq] at hf
        obtain ⟨h1, h2, h3⟩ := hf
        subst h1; subst h2; subst h3
        exact ⟨pmGet_eq_some_of_mem_wf hwf htc, hg, fun h => hne h.symm⟩
      · exact absurd hf (by simp)
  · rintro ⟨hs, ht, hne⟩
    refine ⟨(tok, e), mem_of_pmGet_eq_some hs, ?_⟩
    rw [ht]
    have hne' : a ≠ e := fun h => hne h.symm
    simp [hne']

theorem isClean_iff (sourceMap targetMap : PMap) (hs : pmWF sourceMap)
    (_ht : pmWF targetMap) :
    isClean (diffPlaceholders sourceMap targetMap) = true ↔
      ∀ tok : String, pmGet sourceMap tok = pmGet targetMap tok := by
  rw [isClean, Bool.and_eq_true, Bool.and_eq_true, List.isEmpty_iff,
    List.isEmpty_iff, List.isEmpty_iff]
  constructor
  · rintro ⟨⟨hmiss, hextra⟩, hcm⟩ tok
    cases hsg : pmGet sourceMap tok with
    | none =>
      cases htg : pmGet targetMap tok with
      | none => rfl
      | some a =>
        have : tok ∈ (diffPlaceholders sourceMap targetMap).extra :=
          (mem_extra_iff ..).mpr ⟨by simp [htg], hsg⟩
        rw [hextra] at this
        simp at this
    | some c =>
      cases htg : pmGet targetMap tok with
      | none =>
        have : tok ∈ (diffPlaceholders sourceMap targetMap).missing :=
          (mem_missing_iff ..).mpr ⟨by simp [hsg], htg⟩
        rw [hmiss] at this
        simp at this
      | some a =>
        by_cases hca : c = a
        · rw [hca]
        · have : (⟨tok, c, a⟩ : MismatchEntry) ∈
              (diffPlaceholders sourceMap targetMap).countMismatch :=
            (mem_countMismatch_iff _ _ hs tok c a).mpr ⟨hsg, htg, hca⟩
          rw [hcm] at this
          simp at this
  · intro h
    refine ⟨⟨?_, ?_⟩, ?_⟩
    · refine List.eq_nil_iff_forall_not_mem.mpr fun tok hmem => ?_
      obtain ⟨h1, h2⟩ := (mem_missing_iff ..).mp hmem
      rw [h tok] at h1
      exact h1 h2
    · refine List.eq_nil_iff_forall_not_mem.mpr fun tok hmem => ?_
      obtain ⟨h1, h2⟩ := (mem_extra_iff ..).mp hmem
      rw [← h tok] at h1
      exact h1 h2
    · refine List.eq_nil_iff_forall_not_mem.mpr fun x hmem => ?_
      obtain ⟨tok, e, a⟩ := x
      obtain ⟨h1, h2, h3⟩ := (mem_countMismatch_iff _ _ hs tok e a).mp hmem
      rw [h tok, h2] at h1
      exact h3 (Option.some.inj h1).symm

/-- Contribution of one source key to the comparator's output: at most
one error (first component) and at most one warning (second component). -/
def keyOutcome (target : LocaleDoc) (keywordPrefixes : List String)
    (kv : String × PMap) : Option CError × Option CWarning :=
  match objAccess target kv.1 with
  | none => (none, some (.missingKey kv.1))
  | some (.own (.str sv)) =>
    let d := diffPlaceholders kv.2 (collectPlaceholders (.str sv) keywordPrefixes)
    if diffNotClean d then
      (some (.placeholderMismatch kv.1 d (formatPlaceholderMap kv.2)
          (formatPlaceholderMap (collectPlaceholders (.str sv) keywordPrefixes))),
        none)
    else (none, none)
  | some pv => (none, some (.nonString kv.1 (propTypeof pv)))

theorem compareLocaleFile_eq (src : List (String × PMap)) (target : LocaleDoc)
    (keywordPrefixes : List String) :
    compareLocaleFile src target keywordPrefixes =
      ⟨src.filterMap fun kv => (keyOutcome target keywordPrefixes kv).1,
        src.filterMap fun kv => (keyOutcome target keywordPrefixes kv).2⟩ := by
  induction src with
  | nil => rfl
  | cons kv rest ih =>
    obtain ⟨key, pm⟩ := kv
    cases ho : objAccess target key with
    | none =>
      simp [compareLocaleFile, keyOutcome, ho, ih, List.filterMap_cons]
    | some pv =>
      cases pv with
      | own v =>
        cases v with
        | str sv =>
          cases hguard :
              diffNotClean (diffPlaceholders pm (collectPlaceholders (.str sv) keywordPrefixes)) <;>
            simp [compareLocaleFile, keyOutcome, ho, ih, List.filterMap_cons, hguard]
        | num n => simp [compareLocaleFile, keyOutcome, ho, ih, List.filterMap_cons, propTypeof]
        | bool b => simp [compareLocaleFile, keyOutcome, ho, ih, List.filterMap_cons, propTypeof]
        | null => simp [compareLocaleFile, keyOutcome, ho, ih, List.filterMap_cons, propTypeof]
        | arr elems => simp [compareLocaleFile, keyOutcome, ho, ih, List.filterMap_cons, propTypeof]
        | obj fields => simp [compareLocaleFile, keyOutcome, ho, ih, List.filterMap_cons, propTypeof]
      | inherited t =>
        simp [compareLocaleFile, keyOutcome, ho, ih, List.filterMap_cons, propTypeof]

theorem filter_key_filterMap_nil {β : Type} (g : String × PMap → Option β)
    (keyOf : β → String) (hg : ∀ kv b, g kv = some b → keyOf b = kv.1)
    (key : String) (src : List (String × PMap))
    (hk : key ∉ src.map Prod.fst) :
    (src.filterMap g).filter (fun b => keyOf b == key) = [] := by
  induction src with
  | nil => rfl
  | cons kv rest ih =>
    rw [List.map_cons, List.mem_cons, not_or] at hk
    obtain ⟨hk1, hk2⟩ := hk
    rw [List.filterMap_cons]
    cases hkv : g kv with
    | none => exact ih hk2
    | some b =>
      have hb : (keyOf b == key) = false :=
        beq_eq_false_iff_ne.mpr (by rw [hg kv b hkv]; exact fun h => hk1 h.symm)
      rw [List.filter_cons, hb]
      simp only [Bool.false_eq_true, if_false]
      exact ih hk2

theorem filter_key_filterMap_mem {β : Type} (g : String × PMap → Option β)
    (keyOf : β → String) (hg : ∀ kv b, g kv = some b → keyOf b = kv.1)
    (key : String) (pm : PMap) (src : List (String × PMap))
    (hmem : (key, pm) ∈ src) (hwf : (src.map Prod.fst).Nodup) :
    (src.filterMap g).filter (fun b => keyOf b == key) =
      (g (key, pm)).toList := by
  induction src with
  | nil => simp at hmem
  | cons kv rest ih =>
    rw [List.map_cons, List.nodup_cons] at hwf
    rcases List.mem_cons.mp hmem with h | h
    · subst h
      rw [List.filterMap_cons]
      cases hkv : g (key, pm) with
      | none =>
        exact filter_key_filterMap_nil g keyOf hg key rest hwf.1
      | some b =>
        have hb : (keyOf b == key) = true := beq_iff_eq.mpr (hg _ b hkv)
        rw [List.filter_cons, hb]
        simp only [if_true]
        rw [filter_key_filterMap_nil g keyOf hg key rest hwf.1]
        rfl
    · have hk1 : kv.1 ≠ key := by
        intro hkey
        exact hwf.1 (hkey ▸ List.mem_map.mpr ⟨(key, pm), h, rfl⟩)
      rw [List.filterMap_cons]
      cases hkv : g kv with
      | none => exact ih h hwf.2
      | some b =>
        have hb : (keyOf b == key) = false :=
          beq_eq_false_iff_ne.mpr (by rw [hg kv b hkv]; exact hk1)
        rw [List.filter_cons, hb]
        simp only [Bool.false_eq_true, if_false]
        exact ih h hwf.2

theorem errorKey_keyOutcome (target : LocaleDoc) (keywordPrefixes : List String)
    (kv : String × PMap) (e : CError)
    (h : (keyOutcome target keywordPrefixes kv).1 = some e) :
    errorKey e = kv.1 := by
  unfold keyOutcome at h
  split at h
  · simp at h
  · simp only [apply_ite Prod.fst] at h
    split at h
    · obtain rfl : _ = e := Option.some.inj h
      rfl
    · simp at h
  · simp at h

theorem warningKey_keyOutcome (target : LocaleDoc) (keywordPrefixes : List String)
    (kv : String × PMap) (w : CWarning)
    (h : (keyOutcome target keywordPrefixes kv).2 = some w) :
    warningKey w = kv.1 := by
  unfold keyOutcome at h
  split at h
  · obtain rfl : _ = w := Option.some.inj h
    rfl
  · simp only [apply_ite Prod.snd] at h
    split at h <;> simp at h
  · obtain rfl : _ = w := Option.some.inj h
    rfl

theorem diffGuard_eq (d : DiffResult) :
    diffNotClean d = !isClean d := by
  obtain ⟨m, e, c⟩ := d
  cases m <;> cases e <;> cases c <;> simp [isClean, diffNotClean]

theorem find?_append_first {α : Type} (p : α → Bool) (l1 l2 : List α) (c : α)
    (h1 : ∀ x ∈ l1, p x = false) (hc : p c = true) :
    List.find? p (l1 ++ c :: l2) = some c := by
  induction l1 with
  | nil => exact List.find?_cons_of_pos _ hc
  | cons a l1 ih =>
    rw [List.cons_append, List.find?_cons_of_neg]
    · exact ih fun x hx => h1 x (List.mem_cons_of_mem _ hx)
    · simp [h1 a (List.mem_cons_self ..)]

theorem checkPlaceholders_resolve_error (fsys : FileSys) (opts : CheckOptions)
    (e : CheckError)
    (h : resolveSourceFile fsys.entries opts.source = .error e) :
    checkPlaceholders fsys opts = .error e := by
  unfold checkPlaceholders
  rw [h]
  rfl

theorem Except_bind_ok {ε α β : Type} {ea : Except ε α} {f : α → Except ε β}
    {b : β} (h : ea >>= f = .ok b) : ∃ a, ea = .ok a ∧ f a = .ok b := by
  cases ea with
  | error e => exact absurd h (by simp [Bind.bind, Except.bind])
  | ok a => exact ⟨a, rfl, h⟩

theorem checkPlaceholders_ok_shape (fsys : FileSys) (opts : CheckOptions)
    (rep : Report) (h : checkPlaceholders fsys opts = .ok rep) :
    ∃ src files results, rep = buildReport src files results := by
  unfold checkPlaceholders at h
  obtain ⟨srcName, h1, h⟩ := Except_bind_ok h
  obtain ⟨doc, h2, h⟩ := Except_bind_ok h
  obtain ⟨results, h3, h⟩ := Except_bind_ok h
  exact ⟨_, _, _, (Except.ok.inj h).symm⟩

/-- C1, counterexample.  The claim says a brace-delimited match is
excluded from the returned multiset exactly when a backslash or an
opening brace immediately precedes it or a closing brace immediately
follows it.  In the string consisting of an opening brace, a space and a
closing brace there is exactly one such match, none of the three
adjacency conditions holds for it, and yet `collectPlaceholders` returns
the empty multiset (the content trims to the empty string), so the match
is excluded without any of the three conditions holding. -/
theorem claim_C1_counterexample :
    braceMatches "\x7b \x7d".data = [⟨none, [' '], none⟩] ∧
    (∀ m ∈ braceMatches "\x7b \x7d".data,
      m.prevChar ≠ some '\x5c' ∧ m.prevChar ≠ some '\x7b' ∧
        m.nextChar ≠ some '\x7d') ∧
    collectPlaceholders (.str "\x7b \x7d") [] = [] := by
  decide

/-- C1, amended.  A brace-delimited match is excluded from the multiset
returned by `collectPlaceholders` exactly when the character immediately
preceding the opening brace is a backslash or an opening brace, or the
character immediately following the closing brace is a closing brace, or
the match content trims to the empty string; every non-excluded
occurrence is counted under its trimmed token (this is `braceTokenOf`,
and the count of each token equals the number of matches accepted for
it).  In particular the escaped, doubled-open and doubled-close examples
yield no token for x, while two plain occurrences yield count 2. -/
theorem claim_C1 :
    (∀ (s t : String),
      pmGet (collectPlaceholders (.str s) []) t =
        if (braceTokens s.data).count t = 0 then none
        else some ((braceTokens s.data).count t)) ∧
    collectPlaceholders (.str "\x5c\x7bx\x7d") [] = [] ∧
    collectPlaceholders (.str "\x7b\x7bx\x7d") [] = [] ∧
    collectPlaceholders (.str "\x7bx\x7d\x7d") [] = [] ∧
    collectPlaceholders (.str "\x7bx\x7d\x7bx\x7d") [] = [("x", 2)] := by
  refine ⟨fun s t => ?_, by decide, by decide, by decide, by decide⟩
  rw [pmGet_collect, allTokens_nil]

/-- C2.  With a single non-empty keyword prefix configured, the count of
every token is the number of primary-pass brace tokens plus the number of
keyword-pattern matches (prefix followed by one or more digits) that are
not immediately surrounded by a brace pair, each counted under its full
matched text; and the two example strings give counts 2 and 1. -/
theorem claim_C2 :
    (∀ (s p t : String), p ≠ "" →
      pmGet (collectPlaceholders (.str s) [p]) t =
        if (braceTokens s.data ++ kwTokens p.data s.data).count t = 0 then none
        else some ((braceTokens s.data ++ kwTokens p.data s.data).count t)) ∧
    collectPlaceholders (.str "arg1 and arg1") ["arg"] = [("arg1", 2)] ∧
    collectPlaceholders (.str "\x7barg1\x7d") ["arg"] = [("arg1", 1)] := by
  refine ⟨fun s p t hp => ?_, by decide, by decide⟩
  rw [pmGet_collect, allTokens_single _ _ hp]

/-- C2, witness: the keyword pass counts the unbracketed occurrence in
"xarg12y" once. -/
theorem claim_C2_witness :
    pmGet (collectPlaceholders (.str "xarg12y") ["arg"]) "arg12" = some 1 := by
  have h := claim_C2.1 "xarg12y" "arg" "arg12" (by decide)
  rw [h]
  decide

/-- C3.  For well-formed multisets, `missing` holds exactly the tokens
present in the source and absent from the target, `extra` exactly those
present in the target and absent from the source, and `countMismatch`
exactly one entry (token, expected = source count, actual = target count)
for each token present in both with differing counts; and the example
diff evaluates as stated. -/
theorem claim_C3 :
    (∀ (sourceMap targetMap : PMap), pmWF sourceMap → pmWF targetMap →
      ∀ t : String,
        (t ∈ (diffPlaceholders sourceMap targetMap).missing ↔
          pmGet sourceMap t ≠ none ∧ pmGet targetMap t = none) ∧
        (t ∈ (diffPlaceholders sourceMap targetMap).extra ↔
          pmGet targetMap t ≠ none ∧ pmGet sourceMap t = none) ∧
        (∀ e a : Nat,
          (⟨t, e, a⟩ : MismatchEntry) ∈
              (diffPlaceholders sourceMap targetMap).countMismatch ↔
            pmGet sourceMap t = some e ∧ pmGet targetMap t = some a ∧ e ≠ a)) ∧
    diffPlaceholders [("a", 1), ("b", 2)] [("a", 1), ("b", 1), ("c", 1)] =
      ⟨[], ["c"], [⟨"b", 2, 1⟩]⟩ := by
  refine ⟨fun sourceMap targetMap hs _ t =>
    ⟨mem_missing_iff .., mem_extra_iff ..,
      fun e a => mem_countMismatch_iff _ _ hs t e a⟩, by decide⟩

/-- C3, witness: in the example diff, token c is in `extra`. -/
theorem claim_C3_witness :
    "c" ∈ (diffPlaceholders [("a", 1), ("b", 2)]
        [("a", 1), ("b", 1), ("c", 1)]).extra := by
  have h := (claim_C3.1 [("a", 1), ("b", 2)] [("a", 1), ("b", 1), ("c", 1)]
    (by decide) (by decide) "c").2.1
  exact h.mpr ⟨by decide, by decide⟩

/-- C6.  Every token stored by the primary pass is the trim of some brace
match content and is non-empty (so whitespace-only contents are
discarded), and the three examples evaluate as the claim states,
including accumulation of two identical occurrences. -/
theorem claim_C6 :
    (∀ (s t : String), pmGet (collectPlaceholders (.str s) []) t ≠ none →
      t ≠ "" ∧ ∃ m ∈ braceMatches s.data, String.mk (jsTrim m.content) = t) ∧
    collectPlaceholders (.str "\x7b a \x7d") [] = [("a", 1)] ∧
    collectPlaceholders (.str "\x7b \x7d") [] = [] ∧
    collectPlaceholders (.str "\x7bx\x7d\x7bx\x7d") [] = [("x", 2)] := by
  refine ⟨fun s t h => ?_, by decide, by decide, by decide⟩
  rw [pmGet_collect, allTokens_nil] at h
  have hcount : (braceTokens s.data).count t ≠ 0 := by
    intro h0
    rw [if_pos h0] at h
    exact h rfl
  have hmem : t ∈ braceTokens s.data := by
    by_contra hnm
    exact hcount (List.count_eq_zero.mpr hnm)
  obtain ⟨m, hm, hf⟩ := List.mem_filterMap.mp hmem
  unfold braceTokenOf at hf
  split at hf
  · exact absurd hf (by simp)
  · split at hf
    · exact absurd hf (by simp)
    · rename_i hex htok
      obtain rfl := Option.some.inj hf
      exact ⟨htok, m, hm, rfl⟩

/-- C6, witness: the token a of the padded example is trimmed and
non-empty, arising from a brace match. -/
theorem claim_C6_witness :
    "a" ≠ "" ∧ ∃ m ∈ braceMatches "\x7b a \x7d".data,
      String.mk (jsTrim m.content) = "a" :=
  claim_C6.1 "\x7b a \x7d" "a" (by decide)

/-- C9.  Every stored count of a `collectPlaceholders` result is at least
one, and every non-string input yields the empty multiset without
raising. -/
theorem claim_C9 :
    (∀ (v : JSValue) (keywordPrefixes : List String) (t : String) (n : Nat),
      pmGet (collectPlaceholders v keywordPrefixes) t = some n → 1 ≤ n) ∧
    (∀ (v : JSValue) (keywordPrefixes : List String),
      jsTypeof v ≠ "string" → collectPlaceholders v keywordPrefixes = []) := by
  constructor
  · intro v kps t n h
    cases v with
    | str s =>
      rw [pmGet_collect] at h
      split at h
      · exact absurd h (by simp)
      · rename_i hne
        obtain rfl := Option.some.inj h
        exact Nat.pos_of_ne_zero hne
    | num m => simp [collectPlaceholders, pmGet] at h
    | bool b => simp [collectPlaceholders, pmGet] at h
    | null => simp [collectPlaceholders, pmGet] at h
    | arr l => simp [collectPlaceholders, pmGet] at h
    | obj l => simp [collectPlaceholders, pmGet] at h
  · intro v kps hv
    cases v with
    | str s => exact absurd rfl hv
    | num m => rfl
    | bool b => rfl
    | null => rfl
    | arr l => rfl
    | obj l => rfl

/-- C9, witness: a stored count is positive, and a number input yields
the empty multiset. -/
theorem claim_C9_witness :
    1 ≤ 1 ∧ collectPlaceholders (.num 3) ["arg"] = [] :=
  ⟨claim_C9.1 (.str "\x7bx\x7d") [] "x" 1 (by decide),
    claim_C9.2 (.num 3) ["arg"] (by decide)⟩

/-- C10.  For well-formed multisets the diff is clean exactly when the
two multisets agree on the count of every token, and in particular
diffing a well-formed multiset against itself is always clean. -/
theorem claim_C10 :
    (∀ (sourceMap targetMap : PMap), pmWF sourceMap → pmWF targetMap →
      (isClean (diffPlaceholders sourceMap targetMap) = true ↔
        ∀ t : String, pmGet sourceMap t = pmGet targetMap t)) ∧
    (∀ m : PMap, pmWF m → isClean (diffPlaceholders m m) = true) := by
  refine ⟨fun s t hs ht => isClean_iff s t hs ht,
    fun m hm => (isClean_iff m m hm hm).mpr fun _ => rfl⟩

/-- C10, witness: self-diff of a concrete multiset is clean. -/
theorem claim_C10_witness :
    isClean (diffPlaceholders [("a", 1), ("b", 2)] [("a", 1), ("b", 2)]) = true :=
  claim_C10.2 [("a", 1), ("b", 2)] (by decide)

/-- C4.  The report partitions the per-file outcomes: a result with at
least one error lands in `failures` only, a result with no error and at
least one warning lands in `warningsOnly` only, a result with neither
lands in neither, `ok` holds exactly when `failures` is empty, and every
report `checkPlaceholders` returns is of this shape. -/
theorem claim_C4 :
    (∀ (src : String) (files : List String) (results : List FileResult)
        (r : FileResult), r ∈ results →
      (r.errors ≠ [] →
        r ∈ (buildReport src files results).failures ∧
        r ∉ (buildReport src files results).warningsOnly) ∧
      (r.errors = [] → r.warnings ≠ [] →
        r ∈ (buildReport src files results).warningsOnly ∧
        r ∉ (buildReport src files results).failures) ∧
      (r.errors = [] → r.warnings = [] →
        r ∉ (buildReport src files results).failures ∧
        r ∉ (buildReport src files results).warningsOnly)) ∧
    (∀ (src : String) (files : List String) (results : List FileResult),
      (buildReport src files results).ok = true ↔
        (buildReport src files results).failures = []) ∧
    (∀ (fsys : FileSys) (opts : CheckOptions) (rep : Report),
      checkPlaceholders fsys opts = .ok rep →
      ∃ src files results, rep = buildReport src files results) := by
  refine ⟨?_, ?_, checkPlaceholders_ok_shape⟩
  · intro src files results r hr
    refine ⟨fun he => ⟨?_, ?_⟩, fun he hw => ⟨?_, ?_⟩, fun he hw => ⟨?_, ?_⟩⟩
    · simp [buildReport, List.mem_filter, hr, bne_iff_ne, he]
    · simp [buildReport, List.mem_filter, hr, bne_iff_ne, beq_iff_eq,
        List.length_eq_zero, he]
    · simp [buildReport, List.mem_filter, hr, bne_iff_ne, beq_iff_eq,
        List.length_eq_zero, he, hw]
    · simp [buildReport, List.mem_filter, hr, bne_iff_ne, beq_iff_eq,
        List.length_eq_zero, he]
    · simp [buildReport, List.mem_filter, hr, bne_iff_ne, beq_iff_eq,
        List.length_eq_zero, he]
    · simp [buildReport, List.mem_filter, hr, bne_iff_ne, beq_iff_eq,
        List.length_eq_zero, he, hw]
  · intro src files results
    simp [buildReport, beq_iff_eq, List.length_eq_zero]

/-- C4, witness: a one-error result is a failure and not warnings-only,
and the concrete report is ok exactly when its failures list is empty. -/
theorem claim_C4_witness :
    (⟨"a.json", [.placeholderMismatch "k" ⟨["name"], [], []⟩ ["name"] []],
        []⟩ : FileResult) ∈
      (buildReport "zh-cn.json" ["a.json"]
        [⟨"a.json", [.placeholderMismatch "k" ⟨["name"], [], []⟩ ["name"] []],
          []⟩]).failures ∧
    (⟨"a.json", [.placeholderMismatch "k" ⟨["name"], [], []⟩ ["name"] []],
        []⟩ : FileResult) ∉
      (buildReport "zh-cn.json" ["a.json"]
        [⟨"a.json", [.placeholderMismatch "k" ⟨["name"], [], []⟩ ["name"] []],
          []⟩]).warningsOnly :=
  (claim_C4.1 "zh-cn.json" ["a.json"]
    [⟨"a.json", [.placeholderMismatch "k" ⟨["name"], [], []⟩ ["name"] []], []⟩]
    _ (by decide)).1 (by decide)

/-- C5, counterexample.  The claim says a source key absent from the
target document yields exactly one missing-key warning.  The key
toString is absent from the empty target document, yet the JS `in`
operator and property access see the inherited
`Object.prototype.toString` function, so the program takes the
non-string branch and emits a non-string warning whose runtime type name
is function — a missing-key warning is never emitted for this key. -/
theorem claim_C5_counterexample :
    (objGet [] "toString").isNone = true ∧
    compareLocaleFile [("toString", [("name", 1)])] [] [] =
      ⟨[], [.nonString "toString" "function"]⟩ := by
  decide

/-- C5, amended.  For every source key (of a well-formed source table):
a key that is neither an own property of the target document nor an
inherited `Object.prototype` member yields exactly one missing-key
warning and no error; a key whose accessed value (own JSON value, or the
inherited prototype member for a non-own key) is not a string yields
exactly one non-string warning carrying the runtime type name and no
error; a key whose own value is a string yields no warning and exactly
one placeholder-mismatch error iff the diff is not clean — and the key
contributes at most one entry to errors and warnings together. -/
theorem claim_C5 :
    ∀ (src : List (String × PMap)) (target : LocaleDoc)
      (keywordPrefixes : List String) (key : String) (pm : PMap),
      (src.map Prod.fst).Nodup → (key, pm) ∈ src →
      (match objAccess target key with
       | none =>
         (compareLocaleFile src target keywordPrefixes).warnings.filter
             (fun w => warningKey w == key) = [.missingKey key] ∧
         (compareLocaleFile src target keywordPrefixes).errors.filter
             (fun e => errorKey e == key) = []
       | some (PropValue.own (JSValue.str sv)) =>
         (compareLocaleFile src target keywordPrefixes).warnings.filter
             (fun w => warningKey w == key) = [] ∧
         (compareLocaleFile src target keywordPrefixes).errors.filter
             (fun e => errorKey e == key) =
           (if isClean (diffPlaceholders pm
               (collectPlaceholders (.str sv) keywordPrefixes)) then []
            else [.placeholderMismatch key
              (diffPlaceholders pm (collectPlaceholders (.str sv) keywordPrefixes))
              (formatPlaceholderMap pm)
              (formatPlaceholderMap (collectPlaceholders (.str sv) keywordPrefixes))])
       | some pv =>
         (compareLocaleFile src target keywordPrefixes).warnings.filter
             (fun w => warningKey w == key) = [.nonString key (propTypeof pv)] ∧
         (compareLocaleFile src target keywordPrefixes).errors.filter
             (fun e => errorKey e == key) = []) ∧
      ((compareLocaleFile src target keywordPrefixes).errors.filter
          (fun e => errorKey e == key)).length +
        ((compareLocaleFile src target keywordPrefixes).warnings.filter
          (fun w => warningKey w == key)).length ≤ 1 := by
  intro src target kps key pm hwf hmem
  have herr : (compareLocaleFile src target kps).errors.filter
      (fun e => errorKey e == key) = ((keyOutcome target kps (key, pm)).1).toList := by
    rw [compareLocaleFile_eq]
    exact filter_key_filterMap_mem _ _ (errorKey_keyOutcome target kps) key pm
      src hmem hwf
  have hwarn : (compareLocaleFile src target kps).warnings.filter
      (fun w => warningKey w == key) = ((keyOutcome target kps (key, pm)).2).toList := by
    rw [compareLocaleFile_eq]
    exact filter_key_filterMap_mem _ _ (warningKey_keyOutcome target kps) key pm
      src hmem hwf
  rw [herr, hwarn]
  cases ho : objAccess target key with
  | none =>
    have hko : keyOutcome target kps (key, pm) = (none, some (.missingKey key)) := by
      simp [keyOutcome, ho]
    rw [hko]
    exact ⟨⟨rfl, rfl⟩, by simp⟩
  | some pv =>
    cases pv with
    | own v =>
      cases v with
      | str sv =>
        have hguard := diffGuard_eq
          (diffPlaceholders pm (collectPlaceholders (.str sv) kps))
        cases hic : isClean (diffPlaceholders pm (collectPlaceholders (.str sv) kps)) with
        | true =>
          have hko : keyOutcome target kps (key, pm) = (none, none) := by
            simp only [keyOutcome, ho]
            rw [hguard, hic]
            rfl
          rw [hko]
          exact ⟨⟨rfl, by rw [if_pos hic]; rfl⟩, by simp⟩
        | false =>
          have hko : keyOutcome target kps (key, pm) =
              (some (.placeholderMismatch key
                (diffPlaceholders pm (collectPlaceholders (.str sv) kps))
                (formatPlaceholderMap pm)
                (formatPlaceholderMap (collectPlaceholders (.str sv) kps))), none) := by
            simp only [keyOutcome, ho]
            rw [hguard, hic]
            rfl
          rw [hko]
          refine ⟨⟨rfl, ?_⟩, by simp⟩
          rw [if_neg (by simp [hic])]
          rfl
      | num n =>
        have hko : keyOutcome target kps (key, pm) =
            (none, some (.nonString key (propTypeof (.own (.num n))))) := by
          simp [keyOutcome, ho]
        rw [hko]
        exact ⟨⟨rfl, rfl⟩, by simp⟩
      | bool b =>
        have hko : keyOutcome target kps (key, pm) =
            (none, some (.nonString key (propTypeof (.own (.bool b))))) := by
          simp [keyOutcome, ho]
        rw [hko]
        exact ⟨⟨rfl, rfl⟩, by simp⟩
      | null =>
        have hko : keyOutcome target kps (key, pm) =
            (none, some (.nonString key (propTypeof (.own .null)))) := by
          simp [keyOutcome, ho]
        rw [hko]
        exact ⟨⟨rfl, rfl⟩, by simp⟩
      | arr l =>
        have hko : keyOutcome target kps (key, pm) =
            (none, some (.nonString key (propTypeof (.own (.arr l))))) := by
          simp [keyOutcome, ho]
        rw [hko]
        exact ⟨⟨rfl, rfl⟩, by simp⟩
      | obj l =>
        have hko : keyOutcome target kps (key, pm) =
            (none, some (.nonString key (propTypeof (.own (.obj l))))) := by
          simp [keyOutcome, ho]
        rw [hko]
        exact ⟨⟨rfl, rfl⟩, by simp⟩
    | inherited t =>
      have hko : keyOutcome target kps (key, pm) =
          (none, some (.nonString key (propTypeof (.inherited t)))) := by
        simp [keyOutcome, ho]
      rw [hko]
      exact ⟨⟨rfl, rfl⟩, by simp⟩

/-- C5, witness: a source key that is neither an own target property nor
a prototype member yields exactly the one missing-key warning and no
error. -/
theorem claim_C5_witness :
    ((compareLocaleFile [("x", [("name", 1)])] [] []).warnings.filter
        (fun w => warningKey w == "x") = [.missingKey "x"] ∧
      (compareLocaleFile [("x", [("name", 1)])] [] []).errors.filter
        (fun e => errorKey e == "x") = []) ∧
    ((compareLocaleFile [("x", [("name", 1)])] [] []).errors.filter
        (fun e => errorKey e == "x")).length +
      ((compareLocaleFile [("x", [("name", 1)])] [] []).warnings.filter
        (fun w => warningKey w == "x")).length ≤ 1 :=
  claim_C5 [("x", [("name", 1)])] [] [] "x" [("name", 1)] (by decide) (by decide)

/-- C7.  An explicit non-empty source filename resolves to itself when it
exists as a regular file and to a resolution error otherwise; with no
explicit source the first default candidate present as a regular file is
chosen, a directory with none of the candidates gives a resolution error
naming all of them, and any resolution error makes `checkPlaceholders`
fail with that error. -/
theorem claim_C7 :
    (∀ (entries : List DirEntry) (name : String), name ≠ "" →
      (hasFileEntry entries name = true →
        resolveSourceFile entries (some name) = .ok name) ∧
      (hasFileEntry entries name = false →
        resolveSourceFile entries (some name) = .error (.sourceNotFound name))) ∧
    (∀ (entries : List DirEntry) (l1 l2 : List String) (c : String),
      DEFAULT_SOURCE_CANDIDATES = l1 ++ c :: l2 →
      (∀ c' ∈ l1, hasFileEntry entries c' = false) →
      hasFileEntry entries c = true →
      resolveSourceFile entries none = .ok c) ∧
    (∀ entries : List DirEntry,
      (∀ c ∈ DEFAULT_SOURCE_CANDIDATES, hasFileEntry entries c = false) →
      resolveSourceFile entries none =
        .error (.sourceUnresolved DEFAULT_SOURCE_CANDIDATES)) ∧
    (∀ (fsys : FileSys) (opts : CheckOptions) (e : CheckError),
      resolveSourceFile fsys.entries opts.source = .error e →
      checkPlaceholders fsys opts = .error e) := by
  refine ⟨?_, ?_, ?_, checkPlaceholders_resolve_error⟩
  · intro entries name hname
    exact ⟨fun hhas => by simp [resolveSourceFile, hname, hhas],
      fun hhas => by simp [resolveSourceFile, hname, hhas]⟩
  · intro entries l1 l2 c hcand h1 hc
    have hfind : DEFAULT_SOURCE_CANDIDATES.find?
        (fun cand => hasFileEntry entries cand) = some c := by
      rw [hcand]
      exact find?_append_first _ l1 l2 c h1 hc
    simp [resolveSourceFile, hfind]
  · intro entries hall
    have hfind : DEFAULT_SOURCE_CANDIDATES.find?
        (fun cand => hasFileEntry entries cand) = none :=
      List.find?_eq_none.mpr fun x hx => by simp [hall x hx]
    simp [resolveSourceFile, hfind]

/-- C7, witness: an existing explicit source resolves, a missing one
errors, and with no override the first present candidate wins. -/
theorem claim_C7_witness :
    resolveSourceFile [⟨"custom.json", true⟩] (some "custom.json") =
        .ok "custom.json" ∧
    resolveSourceFile [⟨"custom.json", true⟩] (some "other.json") =
        .error (.sourceNotFound "other.json") ∧
    resolveSourceFile [⟨"zhCN.json", true⟩] none = .ok "zhCN.json" :=
  ⟨(claim_C7.1 [⟨"custom.json", true⟩] "custom.json" (by decide)).1 (by decide),
    (claim_C7.1 [⟨"custom.json", true⟩] "other.json" (by decide)).2 (by decide),
    claim_C7.2.1 [⟨"zhCN.json", true⟩] ["zh-cn.json"] ["zh-CN.json", "zh_CN.json"]
      "zhCN.json" (by decide) (by decide) (by decide)⟩

/-- C8.  The comparator's outcome depends only on the target entries at
the source keys: two target documents agreeing on every source key
produce identical file outcomes, so keys present only in the target are
never examined and have no effect. -/
theorem claim_C8 :
    ∀ (src : List (String × PMap)) (target1 target2 : LocaleDoc)
      (keywordPrefixes : List String),
      (∀ key : String, (∃ pm, (key, pm) ∈ src) →
        objGet target1 key = objGet target2 key) →
      compareLocaleFile src target1 keywordPrefixes =
        compareLocaleFile src target2 keywordPrefixes := by
  intro src t1 t2 kps h
  induction src with
  | nil => rfl
  | cons kv rest ih =>
    obtain ⟨key, pm⟩ := kv
    have hk : objGet t1 key = objGet t2 key := h key ⟨pm, List.mem_cons_self ..⟩
    have hk' : objAccess t1 key = objAccess t2 key := by
      unfold objAccess
      rw [hk]
    have hrest := ih fun k hex =>
      h k (hex.imp fun pm' hm => List.mem_cons_of_mem _ hm)
    simp only [compareLocaleFile, hrest, hk']

/-- C8, witness: adding a key absent from the source to the target does
not change the outcome. -/
theorem claim_C8_witness :
    compareLocaleFile [("a", [])] [("a", .str "x"), ("b", .num 1)] [] =
      compareLocaleFile [("a", [])] [("a", .str "x")] [] := by
  apply claim_C8
  intro key hk
  obtain ⟨pm, hm⟩ := hk
  simp only [List.mem_singleton, Prod.mk.injEq] at hm
  rw [hm.1]
  rfl

end PlaceholderChecker
